import Mathlib

/-!
# Verification of `text_cues.py`

A shallow embedding of the cue-generation pipeline of `src/text_cues.py`:
speaker detection, sentence splitting, chunk building and line wrapping,
together with a trace model of `main`.

Text is modelled as `List Char`.  Python whitespace (`str.strip()`, `\s`)
is modelled by its ASCII subset, which is enough for the transcripts the
program processes.  `textwrap.wrap(text, width, break_long_words=False,
break_on_hyphens=False)` is modelled by the greedy word-wrap it performs:
split the text into whitespace-separated words and fill each line with as
many words (joined by single spaces) as fit in `width`, a word longer than
`width` standing alone on its own line, unbroken.
-/

namespace TextCues

/-- ASCII model of Python whitespace (the characters `str.strip()` and the
regex class `\s` recognise in the ASCII range). -/
def isSpace (c : Char) : Bool :=
  c = ' ' || c = '\t' || c = '\n' || c = '\r' || c = Char.ofNat 11 || c = Char.ofNat 12

/-- Python `str.strip()`: drop leading and trailing whitespace. -/
def pyStrip (l : List Char) : List Char :=
  ((l.dropWhile isSpace).reverse.dropWhile isSpace).reverse

/-- Python `str.split()` (no separator): split on whitespace runs,
dropping empty pieces.  `cur` accumulates the current word reversed. -/
def pyWordsAux (cur : List Char) : List Char → List (List Char)
  | [] => if cur.isEmpty then [] else [cur.reverse]
  | c :: rest =>
    if isSpace c then
      if cur.isEmpty then pyWordsAux [] rest else cur.reverse :: pyWordsAux [] rest
    else
      pyWordsAux (c :: cur) rest

def pyWords (l : List Char) : List (List Char) := pyWordsAux [] l

/-- Python `sep.join(pieces)` for a one-character separator. -/
def joinSep (sep : Char) : List (List Char) → List Char
  | [] => []
  | [w] => w
  | w :: ws => w ++ sep :: joinSep sep ws

/-- A character of the class `[A-Z0-9 ]` of `speaker_pattern`. -/
def isLabelChar (c : Char) : Bool := c.isUpper || c.isDigit || c = ' '

/-- Trailing strip of `re.sub(r'[:：\s]+$', '', ...)`. -/
def isLabelStripChar (c : Char) : Bool := c = ':' || c = '：' || isSpace c

/-- Models `speaker_pattern.match(line)` for
`speaker_pattern = re.compile(r'^[A-Z0-9 ]+:\s*')` together with the label
extraction `re.sub(r'[:：\s]+$', '', m.group())` and the remainder
`line[m.end():]` of `generate_chunks_from_file`.  The greedy `[A-Z0-9 ]+`
can only match the maximal run of class characters (backtracking hands a
class character to `:` which never matches), so the pattern matches iff
that maximal run is non-empty and immediately followed by `:`; `\s*` then
consumes the following whitespace run.  Returns `(label, remainder)`. -/
def speakerMatch (l : List Char) : Option (List Char × List Char) :=
  let run := l.takeWhile isLabelChar
  if run.isEmpty then none
  else
    match l.dropWhile isLabelChar with
    | [] => none
    | c :: rest =>
      if c = ':' then
        let group := run ++ ':' :: rest.takeWhile isSpace
        some ((group.reverse.dropWhile isLabelStripChar).reverse, rest.dropWhile isSpace)
      else none

/-- A sentence terminator, the class `[.!?]`. -/
def isTerm (c : Char) : Bool := c = '.' || c = '!' || c = '?'

def headIsSpace : List Char → Bool
  | [] => false
  | c :: _ => isSpace c

/-- Models `sentence_split_pattern.split(line)` for
`sentence_split_pattern = re.compile(r'(?<!\.)[.!?](?!\.)\s+')`.
A match is a terminator not preceded by `.` and followed by at least one
whitespace character (which also discharges the `(?!\.)` lookahead);
`re.split` removes the matched text — terminator and whitespace run —
so the terminator does not appear in either adjacent piece.
`prevDot` records whether the previous character is `.` (the lookbehind),
`skipping` that we are consuming the `\s+` run of a match, and `cur` the
current piece reversed. -/
def splitSentencesAux (prevDot skipping : Bool) (cur : List Char) :
    List Char → List (List Char)
  | [] => [cur.reverse]
  | c :: rest =>
    if skipping && isSpace c then
      splitSentencesAux prevDot true cur rest
    else if isTerm c && !prevDot && headIsSpace rest then
      cur.reverse :: splitSentencesAux false true [] rest
    else
      splitSentencesAux (c == '.') false (c :: cur) rest

def splitSentences (l : List Char) : List (List Char) :=
  splitSentencesAux false false [] l

/-- The sentence loop of `generate_chunks_from_file`: split the line,
strip each piece, keep the non-empty ones. -/
def lineSentences (line : List Char) : List (List Char) :=
  (splitSentences line).filterMap fun s =>
    let s' := pyStrip s
    if s'.isEmpty then none else some s'

/-- The slices `l[i : i+n]` for `i = 0, n, 2n, ...`, the slicing loops of
`build_chunks_from_sentences` (`while i < len(sentences)` and
`range(0, len(lines), max_lines_per_chunk)`).  Structural recursion on a
fuel argument initialised to the list length, which suffices when
`0 < n`; the source diverges (or raises) when the step `n` is zero, and
every theorem below assumes `0 < n`. -/
def chunksGo (n : Nat) : Nat → List α → List (List α)
  | _, [] => []
  | 0, _ :: _ => []
  | fuel + 1, x :: xs => (x :: xs).take n :: chunksGo n fuel ((x :: xs).drop n)

def toChunks (n : Nat) (l : List α) : List (List α) := chunksGo n l.length l

/-- One line of wrapped output: words joined by single spaces. -/
def renderLine (ws : List (List Char)) : List Char := joinSep ' ' ws

/-- Greedy fill of `textwrap.wrap`: `curLine` is the current line's words
reversed, `curLen` its rendered length.  A word is added if the line stays
within `width`, otherwise the line is emitted and the word starts the next
line (so a word longer than `width` ends up alone on a line, unbroken —
`break_long_words=False`). -/
def wrapWordsAux (width : Nat) (curLine : List (List Char)) (curLen : Nat) :
    List (List Char) → List (List (List Char))
  | [] => [curLine.reverse]
  | w :: ws =>
    if curLen + 1 + w.length ≤ width then
      wrapWordsAux width (w :: curLine) (curLen + 1 + w.length) ws
    else
      curLine.reverse :: wrapWordsAux width [w] w.length ws

def wrapWords (width : Nat) : List (List Char) → List (List (List Char))
  | [] => []
  | w :: ws => wrapWordsAux width [w] w.length ws

/-- Model of `textwrap.wrap(text, width=width, break_long_words=False,
break_on_hyphens=False)` on the single-spaced text the program builds:
greedy filling of whitespace-separated words.  (The model renders the
words single-spaced; `textwrap` keeps an interior whitespace run as one
chunk, which only differs when a sentence carries a multi-character
whitespace run inside it, and the line bounds proved below hold either
way, as `textwrap` also only adds a chunk while the line stays within
`width`.) -/
def pyWrap (width : Nat) (text : List Char) : List (List Char) :=
  (wrapWords width (pyWords text)).map renderLine

/-- Python `build_chunks_from_sentences(sentences, max_sentences_per_chunk,
max_lines_per_chunk, max_chars_per_line)`: group the sentences
`max_sentences_per_chunk` at a time, join each group with single spaces,
wrap it, and emit the wrapped lines `max_lines_per_chunk` at a time
joined with newlines. -/
def build_chunks_from_sentences (maxS maxL maxC : Nat)
    (sentences : List (List Char)) : List (List Char) :=
  (toChunks maxS sentences).flatMap fun group =>
    (toChunks maxL (pyWrap maxC (joinSep ' ' group))).map (joinSep '\n')

/-- The mutable state of the `generate_chunks_from_file` loop:
`current_sentences` and `current_speaker`. -/
structure GenState where
  sentences : List (List Char)
  speaker : Option (List Char)
  deriving DecidableEq

/-- The body of the `for raw_line in f` loop of
`generate_chunks_from_file`: returns the chunks yielded while processing
this line, and the updated state.  A blank line is skipped.  A line
matching `speaker_pattern` first flushes `current_sentences` (each chunk
paired with the *old* `current_speaker`), then installs the new speaker
and keeps only the text after the label; the flush guard
`if current_sentences:` of the source is absorbed by
`build_chunks_from_sentences` returning `[]` on `[]`. -/
def processLine (maxS maxL maxC : Nat) (st : GenState) (raw : List Char) :
    List (List Char × Option (List Char)) × GenState :=
  let line := pyStrip raw
  if line.isEmpty then ([], st)
  else
    match speakerMatch line with
    | some (label, rest) =>
      ((build_chunks_from_sentences maxS maxL maxC st.sentences).map
          (fun c => (c, st.speaker)),
        ⟨lineSentences (pyStrip rest), some label⟩)
    | none => ([], ⟨st.sentences ++ lineSentences line, st.speaker⟩)

/-- The loop of `generate_chunks_from_file` from state `st`, including the
end-of-input flush. -/
def genAux (maxS maxL maxC : Nat) (st : GenState) :
    List (List Char) → List (List Char × Option (List Char))
  | [] => (build_chunks_from_sentences maxS maxL maxC st.sentences).map
      fun c => (c, st.speaker)
  | raw :: rest =>
    let p := processLine maxS maxL maxC st raw
    p.1 ++ genAux maxS maxL maxC p.2 rest

/-- The generator `generate_chunks_from_file` on the file's lines, as
character lists. -/
def generate_chunks (maxS maxL maxC : Nat) (lines : List (List Char)) :
    List (List Char × Option (List Char)) :=
  genAux maxS maxL maxC ⟨[], none⟩ lines

/-- The generator `generate_chunks_from_file` at the `String` level: the
list of `(chunk, speaker)` pairs it yields for a file with the given
lines. -/
def generate_chunks_from_file (maxS maxL maxC : Nat) (lines : List String) :
    List (String × Option String) :=
  (generate_chunks maxS maxL maxC (lines.map String.toList)).map
    fun p => (String.mk p.1, p.2.map String.mk)

/-- The flush history of the `generate_chunks_from_file` loop from state
`st`: the successive values of `(current_sentences, current_speaker)` at
the moments the source passes `current_sentences` to
`build_chunks_from_sentences` — one entry per speaker-change line, plus
the end-of-input flush.  It mirrors the state transitions of
`processLine` exactly; `genAux_eq_flushes` below proves the
correspondence with the emitted chunk stream. -/
def flushesAux (st : GenState) :
    List (List Char) → List (List (List Char) × Option (List Char))
  | [] => [(st.sentences, st.speaker)]
  | raw :: rest =>
    let line := pyStrip raw
    if line.isEmpty then flushesAux st rest
    else
      match speakerMatch line with
      | some (label, r) =>
        (st.sentences, st.speaker) ::
          flushesAux ⟨lineSentences (pyStrip r), some label⟩ rest
      | none => flushesAux ⟨st.sentences ++ lineSentences line, st.speaker⟩ rest

/-- Every Sentence the input produces, in document order, tagged with the
speaker label active when it is produced: a line matching the speaker
pattern contributes the sentences of its remainder under the *new* label
(the source updates `current_speaker` before splitting the remainder),
any other non-blank line contributes its sentences under the inherited
label.  This attribution is computed directly from the input, with no
reference to flushing or chunk building. -/
def annotatedAux (spk : Option (List Char)) :
    List (List Char) → List (List Char × Option (List Char))
  | [] => []
  | raw :: rest =>
    let line := pyStrip raw
    if line.isEmpty then annotatedAux spk rest
    else
      match speakerMatch line with
      | some (label, r) =>
        (lineSentences (pyStrip r)).map (fun s => (s, some label)) ++
          annotatedAux (some label) rest
      | none =>
        (lineSentences line).map (fun s => (s, spk)) ++ annotatedAux spk rest

/-- The speaker-tagged Sentence stream of an input (active speaker starts
as `None`). -/
def annotatedSentences (lines : List (List Char)) :
    List (List Char × Option (List Char)) :=
  annotatedAux none lines

/-- The configuration constants of the CONFIG block. -/
def MAX_SENTENCES_PER_CHUNK : Nat := 2

def MAX_LINES_PER_CHUNK : Nat := 4

def MAX_CHARS_PER_LINE : Nat := 55

/-- One observable effect of `main`'s cue loop and epilogue. -/
inductive Effect where
  | printCueMsg (i : Nat) (speaker : Option String) (chunk : String)
  | createCue (chunk : String) (speaker : Option String)
  | printFadeMsg
  | createFadeGroups
  | printAllMsg (n : Nat)
  deriving DecidableEq

/-- A Python runtime error surfacing from `main`. -/
inductive PyError where
  | nameError
  deriving DecidableEq

/-- Trace model of `main()` after the argument and file checks succeed:
`for i, (chunk, speaker) in enumerate(generate_chunks_from_file(...), 1)`
prints a message and creates a cue for each chunk; then `main`
unconditionally prints the fade-group message and calls
`create_fadegroups()`; finally `print(f"All ... cues created
successfully!")` reads the loop variable `i`, which is unbound when the
loop ran zero iterations — Python raises `NameError` (its subclass
`UnboundLocalError`) there, modelled as the error outcome; otherwise `i`
holds the number of cues and the message is printed. -/
def mainModel (lines : List String) : List Effect × Option PyError :=
  let cues := generate_chunks_from_file MAX_SENTENCES_PER_CHUNK
    MAX_LINES_PER_CHUNK MAX_CHARS_PER_LINE lines
  let pre := (List.enumFrom 1 cues).flatMap
      (fun p => [Effect.printCueMsg p.1 p.2.2 p.2.1, Effect.createCue p.2.1 p.2.2])
    ++ [Effect.printFadeMsg, Effect.createFadeGroups]
  match cues with
  | [] => (pre, some PyError.nameError)
  | _ :: _ => (pre ++ [Effect.printAllMsg cues.length], none)

/-! ## Basic lemmas about the character-level primitives -/

theorem dropWhile_head_false {α : Type _} {p : α → Bool} :
    ∀ {l : List α} {c : α} {t : List α}, List.dropWhile p l = c :: t → p c = false := by
  intro l
  induction l with
  | nil => intro c t h; simp [List.dropWhile] at h
  | cons a l ih =>
    intro c t h
    rw [List.dropWhile_cons] at h
    by_cases ha : p a = true
    · rw [if_pos ha] at h; exact ih h
    · rw [if_neg ha] at h
      injection h with h1 _
      subst h1
      simpa using ha

theorem mem_of_dropWhile_nil {α : Type _} {p : α → Bool} :
    ∀ {l : List α}, List.dropWhile p l = [] → ∀ x ∈ l, p x = true := by
  intro l
  induction l with
  | nil => simp
  | cons a l ih =>
    intro h x hx
    rw [List.dropWhile_cons] at h
    by_cases ha : p a = true
    · rw [if_pos ha] at h
      rcases List.mem_cons.mp hx with rfl | hx'
      · exact ha
      · exact ih h x hx'
    · rw [if_neg ha] at h; cases h

theorem dropWhile_dropWhile {α : Type _} (p : α → Bool) (l : List α) :
    List.dropWhile p (List.dropWhile p l) = List.dropWhile p l := by
  cases h : List.dropWhile p l with
  | nil => rfl
  | cons c t => rw [List.dropWhile_cons, dropWhile_head_false h]; simp

theorem pyStrip_pref (raw : List Char) : pyStrip raw <+: raw.dropWhile isSpace := by
  unfold pyStrip
  conv_rhs => rw [← List.reverse_reverse (raw.dropWhile isSpace)]
  exact List.reverse_prefix.mpr (List.dropWhile_suffix isSpace)

theorem pyStrip_head_not_space {raw : List Char} {c : Char} {t : List Char}
    (h : pyStrip raw = c :: t) : isSpace c = false := by
  have hp := pyStrip_pref raw
  rw [h] at hp
  rcases hp with ⟨s, hs⟩
  rw [List.cons_append] at hs
  exact dropWhile_head_false hs.symm

theorem pyStrip_idem (l : List Char) : pyStrip (pyStrip l) = pyStrip l := by
  have h1 : List.dropWhile isSpace (pyStrip l) = pyStrip l := by
    cases h : pyStrip l with
    | nil => rfl
    | cons c t => rw [List.dropWhile_cons, pyStrip_head_not_space h]; simp
  show ((List.dropWhile isSpace (pyStrip l)).reverse.dropWhile isSpace).reverse = pyStrip l
  rw [h1]
  have h2 : (pyStrip l).reverse = (l.dropWhile isSpace).reverse.dropWhile isSpace := by
    unfold pyStrip; rw [List.reverse_reverse]
  rw [h2, dropWhile_dropWhile, ← h2, List.reverse_reverse]

/-- A character of the label class that is not whitespace is not removed
by the trailing strip of the label extraction. -/
theorem labelChar_not_strip {c : Char} (h1 : isLabelChar c = true)
    (h2 : isSpace c = false) : isLabelStripChar c = false := by
  unfold isLabelStripChar
  rw [h2]
  have hc1 : c ≠ ':' := by rintro rfl; revert h1; decide
  have hc2 : c ≠ '：' := by rintro rfl; revert h1; decide
  simp [hc1, hc2]

theorem speakerMatch_nil : speakerMatch [] = none := rfl

/-- C7: whenever a (stripped) line matches the speaker-label pattern,
the extracted label — the match with its trailing colon and whitespace
stripped — is never the empty string, so the active speaker is always
either absent or a non-empty label: the stripped line starts with a
non-whitespace label character which the trailing strip cannot remove. -/
theorem c7_label_nonempty {raw lbl rest : List Char}
    (h : speakerMatch (pyStrip raw) = some (lbl, rest)) : lbl ≠ [] := by
  cases hc : pyStrip raw with
  | nil => rw [hc, speakerMatch_nil] at h; cases h
  | cons c0 t =>
    rw [hc] at h
    have hsp : isSpace c0 = false := pyStrip_head_not_space hc
    by_cases hl : isLabelChar c0 = true
    · cases hd : List.dropWhile isLabelChar t with
      | nil =>
        simp [speakerMatch, List.takeWhile_cons, List.dropWhile_cons, hl, hd] at h
      | cons c1 r1 =>
        by_cases hc1 : c1 = ':'
        · subst hc1
          simp only [speakerMatch, List.takeWhile_cons, List.dropWhile_cons, hl,
            if_pos, if_true, List.isEmpty_cons, Bool.false_eq_true, if_false, hd,
            ite_true, Option.some.injEq, Prod.mk.injEq] at h
          rcases h with ⟨hlbl, -⟩
          subst hlbl
          intro hnil
          rw [List.reverse_eq_nil_iff] at hnil
          have hmem : c0 ∈ ((c0 :: List.takeWhile isLabelChar t) ++
              ':' :: List.takeWhile isSpace r1).reverse := by
            rw [List.mem_reverse]
            exact List.mem_append.mpr (Or.inl (List.mem_cons_self _ _))
          have hall := mem_of_dropWhile_nil hnil c0 hmem
          rw [labelChar_not_strip hl hsp] at hall
          cases hall
        · simp [speakerMatch, List.takeWhile_cons, List.dropWhile_cons, hl, hd, hc1] at h
    · simp [speakerMatch, List.takeWhile_cons, hl] at h

/-! ## Lemmas about slicing, words and wrapping -/

theorem chunksGo_mem {α : Type _} {n : Nat} (hn : 0 < n) :
    ∀ (fuel : Nat) (l : List α) (c : List α), c ∈ chunksGo n fuel l →
      c ≠ [] ∧ c.length ≤ n ∧ c <:+: l := by
  intro fuel
  induction fuel with
  | zero =>
    intro l c h
    cases l with
    | nil => simp [chunksGo] at h
    | cons x xs => simp [chunksGo] at h
  | succ fuel ih =>
    intro l c h
    cases l with
    | nil => simp [chunksGo] at h
    | cons x xs =>
      simp only [chunksGo] at h
      rcases List.mem_cons.mp h with rfl | h'
      · refine ⟨?_, ?_, ?_⟩
        · simp [List.take_eq_nil_iff, Nat.pos_iff_ne_zero.mp hn]
        · simp [Nat.min_le_left]
        · have hp := List.take_prefix n (x :: xs)
          exact hp.isInfix
      · rcases ih _ c h' with ⟨h1, h2, h3⟩
        have hd := List.drop_suffix n (x :: xs)
        exact ⟨h1, h2, h3.trans hd.isInfix⟩

theorem toChunks_mem {α : Type _} {n : Nat} (hn : 0 < n) {l : List α} {c : List α}
    (h : c ∈ toChunks n l) : c ≠ [] ∧ c.length ≤ n ∧ c <:+: l :=
  chunksGo_mem hn l.length l c h

theorem pyWordsAux_sound :
    ∀ (l cur : List Char), (∀ c ∈ cur, isSpace c = false) →
      ∀ w ∈ pyWordsAux cur l, w ≠ [] ∧ ∀ c ∈ w, isSpace c = false := by
  intro l
  induction l with
  | nil =>
    intro cur hcur w hw
    by_cases hc : cur.isEmpty = true
    · simp [pyWordsAux, hc] at hw
    · simp only [pyWordsAux, hc, if_false, Bool.false_eq_true, List.mem_singleton] at hw
      subst hw
      refine ⟨?_, fun c hcw => hcur c (List.mem_reverse.mp hcw)⟩
      rw [ne_eq, List.reverse_eq_nil_iff]
      simpa [List.isEmpty_iff] using hc
  | cons c rest ih =>
    intro cur hcur w hw
    by_cases hc : isSpace c = true
    · by_cases hce : cur.isEmpty = true
      · simp only [pyWordsAux, hc, hce, if_true] at hw
        exact ih [] (by simp) w hw
      · simp only [pyWordsAux, hc, hce, if_true, Bool.false_eq_true, if_false,
          List.mem_cons] at hw
        rcases hw with rfl | hw'
        · refine ⟨?_, fun d hd => hcur d (List.mem_reverse.mp hd)⟩
          rw [ne_eq, List.reverse_eq_nil_iff]
          simpa [List.isEmpty_iff] using hce
        · exact ih [] (by simp) w hw'
    · simp only [pyWordsAux, hc, Bool.false_eq_true, if_false] at hw
      refine ih (c :: cur) ?_ w hw
      intro d hd
      rcases List.mem_cons.mp hd with rfl | hd'
      · simpa using hc
      · exact hcur d hd'

theorem pyWords_sound (l : List Char) :
    ∀ w ∈ pyWords l, w ≠ [] ∧ ∀ c ∈ w, isSpace c = false :=
  pyWordsAux_sound l [] (by simp)

theorem joinSep_cons_cons (sep : Char) (x y : List Char) (l : List (List Char)) :
    joinSep sep (x :: y :: l) = x ++ sep :: joinSep sep (y :: l) := rfl

theorem joinSep_cons_ne (sep : Char) (x : List Char) (l : List (List Char))
    (h : l ≠ []) : joinSep sep (x :: l) = x ++ sep :: joinSep sep l := by
  cases l with
  | nil => cases h rfl
  | cons y ys => exact joinSep_cons_cons sep x y ys

theorem joinSep_append_single (sep : Char) :
    ∀ (xs : List (List Char)) (w : List Char), xs ≠ [] →
      joinSep sep (xs ++ [w]) = joinSep sep xs ++ sep :: w := by
  intro xs
  induction xs with
  | nil => intro w h; cases h rfl
  | cons x xs ih =>
    intro w _
    cases xs with
    | nil => simp [joinSep]
    | cons y ys =>
      rw [List.cons_append, joinSep_cons_ne sep x _ (by simp),
        ih w (by simp), joinSep_cons_ne sep x (y :: ys) (by simp)]
      simp

theorem renderLine_append_single (xs : List (List Char)) (w : List Char)
    (h : xs ≠ []) :
    (renderLine (xs ++ [w])).length = (renderLine xs).length + 1 + w.length := by
  unfold renderLine
  rw [joinSep_append_single ' ' xs w h]
  simp [List.length_append]
  omega

theorem mem_joinSep (sep : Char) :
    ∀ (ws : List (List Char)) (c : Char), c ∈ joinSep sep ws →
      c = sep ∨ ∃ w ∈ ws, c ∈ w := by
  intro ws
  induction ws with
  | nil => intro c h; cases h
  | cons x xs ih =>
    intro c h
    cases xs with
    | nil => exact Or.inr ⟨x, by simp, by simpa [joinSep] using h⟩
    | cons y ys =>
      rw [joinSep_cons_cons] at h
      rcases List.mem_append.mp h with h1 | h2
      · exact Or.inr ⟨x, by simp, h1⟩
      · rcases List.mem_cons.mp h2 with rfl | h3
        · exact Or.inl rfl
        · rcases ih c h3 with h4 | ⟨w, hw1, hw2⟩
          · exact Or.inl h4
          · exact Or.inr ⟨w, by simp [hw1], hw2⟩

theorem wrapWordsAux_lines (width : Nat) :
    ∀ (ws curLine : List (List Char)) (curLen : Nat),
      curLine ≠ [] →
      curLen = (renderLine curLine.reverse).length →
      (curLen ≤ width ∨ ∃ w, curLine = [w]) →
      ∀ g ∈ wrapWordsAux width curLine curLen ws,
        (renderLine g).length ≤ width ∨ ∃ w, g = [w] := by
  intro ws
  induction ws with
  | nil =>
    intro curLine curLen hne hlen hinv g hg
    simp only [wrapWordsAux, List.mem_singleton] at hg
    subst hg
    rcases hinv with h | ⟨w, rfl⟩
    · exact Or.inl (by rw [← hlen]; exact h)
    · exact Or.inr ⟨w, by simp⟩
  | cons w ws ih =>
    intro curLine curLen hne hlen hinv g hg
    simp only [wrapWordsAux] at hg
    by_cases hfit : curLen + 1 + w.length ≤ width
    · rw [if_pos hfit] at hg
      refine ih (w :: curLine) _ (by simp) ?_ (Or.inl hfit) g hg
      rw [List.reverse_cons, renderLine_append_single _ w (by simpa using hne), ← hlen]
    · rw [if_neg hfit] at hg
      rcases List.mem_cons.mp hg with rfl | hg'
      · rcases hinv with h | ⟨w', rfl⟩
        · exact Or.inl (by rw [← hlen]; exact h)
        · exact Or.inr ⟨w', by simp⟩
      · exact ih [w] w.length (by simp) (by simp [renderLine, joinSep])
          (Or.inr ⟨w, rfl⟩) g hg'

theorem wrapWords_line_bound (width : Nat) (ws : List (List Char)) :
    ∀ g ∈ wrapWords width ws, (renderLine g).length ≤ width ∨ ∃ w, g = [w] := by
  cases ws with
  | nil => intro g hg; cases hg
  | cons w ws =>
    intro g hg
    simp only [wrapWords] at hg
    exact wrapWordsAux_lines width ws [w] w.length (by simp)
      (by simp [renderLine, joinSep]) (Or.inr ⟨w, rfl⟩) g hg

theorem wrapWordsAux_subset (width : Nat) :
    ∀ (ws curLine : List (List Char)) (curLen : Nat),
      ∀ g ∈ wrapWordsAux width curLine curLen ws, ∀ x ∈ g,
        x ∈ curLine.reverse ++ ws := by
  intro ws
  induction ws with
  | nil =>
    intro curLine curLen g hg x hx
    simp only [wrapWordsAux, List.mem_singleton] at hg
    subst hg
    simpa using hx
  | cons w ws ih =>
    intro curLine curLen g hg x hx
    simp only [wrapWordsAux] at hg
    by_cases hfit : curLen + 1 + w.length ≤ width
    · rw [if_pos hfit] at hg
      have hm := ih (w :: curLine) _ g hg x hx
      simp only [List.reverse_cons, List.append_assoc, List.mem_append,
        List.mem_singleton, List.mem_cons] at hm ⊢
      tauto
    · rw [if_neg hfit] at hg
      rcases List.mem_cons.mp hg with rfl | hg'
      · exact List.mem_append.mpr (Or.inl hx)
      · have hm := ih [w] w.length g hg' x hx
        simp only [List.reverse_cons, List.reverse_nil, List.nil_append,
          List.cons_append, List.mem_append, List.mem_singleton,
          List.mem_cons] at hm ⊢
        tauto

theorem wrapWords_subset (width : Nat) (ws : List (List Char)) :
    ∀ g ∈ wrapWords width ws, ∀ x ∈ g, x ∈ ws := by
  cases ws with
  | nil => intro g hg; cases hg
  | cons w ws =>
    intro g hg x hx
    simp only [wrapWords] at hg
    have hm := wrapWordsAux_subset width ws [w] w.length g hg x hx
    simpa using hm

/-- Every line `textwrap.wrap` produces is within the width, or is a
single unbroken word (non-empty, no whitespace); and no line contains a
newline. -/
theorem pyWrap_line_sound (width : Nat) (text : List Char) :
    ∀ line ∈ pyWrap width text,
      (line.length ≤ width ∨ (line ≠ [] ∧ ∀ c ∈ line, isSpace c = false)) ∧
        ('\n' : Char) ∉ line := by
  intro line hline
  simp only [pyWrap, List.mem_map] at hline
  rcases hline with ⟨g, hg, rfl⟩
  constructor
  · rcases wrapWords_line_bound width (pyWords text) g hg with h | ⟨w, rfl⟩
    · exact Or.inl h
    · right
      have hw : w ∈ pyWords text :=
        wrapWords_subset width (pyWords text) [w] hg w (by simp)
      have hs := pyWords_sound text w hw
      simpa [renderLine, joinSep] using hs
  · intro hmem
    have hmem' : ('\n' : Char) ∈ joinSep ' ' g := hmem
    rcases mem_joinSep ' ' g '\n' hmem' with h | ⟨w, hw1, hw2⟩
    · exact absurd h (by decide)
    · have hw : w ∈ pyWords text :=
        wrapWords_subset width (pyWords text) g hg w hw1
      have hs := (pyWords_sound text w hw).2 '\n' hw2
      exact absurd hs (by decide)

/-! ## Pipeline lemmas -/

theorem build_chunks_nil (maxS maxL maxC : Nat) :
    build_chunks_from_sentences maxS maxL maxC [] = [] := rfl

theorem lineSentences_nil : lineSentences [] = [] := rfl

/-- The chunk stream is exactly the concatenation, over the flush
history, of the chunks built from each flushed sentence group, tagged
with the speaker active at that flush. -/
theorem genAux_eq_flushes (maxS maxL maxC : Nat) :
    ∀ (lines : List (List Char)) (st : GenState),
      genAux maxS maxL maxC st lines = (flushesAux st lines).flatMap
        (fun g => (build_chunks_from_sentences maxS maxL maxC g.1).map
          (fun c => (c, g.2))) := by
  intro lines
  induction lines with
  | nil => intro st; simp [genAux, flushesAux]
  | cons raw rest ih =>
    intro st
    by_cases hl : (pyStrip raw).isEmpty = true
    · simp [genAux, processLine, flushesAux, hl, ih]
    · cases hm : speakerMatch (pyStrip raw) with
      | some p =>
        obtain ⟨lbl, r⟩ := p
        simp [genAux, processLine, flushesAux, hl, hm, ih]
      | none =>
        simp [genAux, processLine, flushesAux, hl, hm, ih]

/-- Every flushed sentence group, tagged with its flush speaker, is a
contiguous run of the speaker-tagged Sentence stream: all its sentences
were produced under that very speaker. -/
theorem flushes_tagged :
    ∀ (lines : List (List Char)) (st : GenState) (buf : List (List Char))
      (spk : Option (List Char)), (buf, spk) ∈ flushesAux st lines →
      buf.map (fun s => (s, spk)) <:+:
        st.sentences.map (fun s => (s, st.speaker)) ++
          annotatedAux st.speaker lines := by
  intro lines
  induction lines with
  | nil =>
    intro st buf spk h
    simp only [flushesAux, List.mem_singleton, Prod.mk.injEq] at h
    rcases h with ⟨rfl, rfl⟩
    simp [annotatedAux]
  | cons raw rest ih =>
    intro st buf spk h
    by_cases hl : (pyStrip raw).isEmpty = true
    · simp only [flushesAux, hl, if_true] at h
      have h2 := ih st buf spk h
      simpa [annotatedAux, hl] using h2
    · cases hm : speakerMatch (pyStrip raw) with
      | none =>
        simp only [flushesAux, hl, Bool.false_eq_true, if_false, hm] at h
        have h2 := ih _ buf spk h
        rw [List.map_append, List.append_assoc] at h2
        simpa [annotatedAux, hl, hm] using h2
      | some p =>
        obtain ⟨lbl, r⟩ := p
        simp only [flushesAux, hl, Bool.false_eq_true, if_false, hm,
          List.mem_cons, Prod.mk.injEq] at h
        rcases h with ⟨rfl, rfl⟩ | h'
        · have hp := List.prefix_append
            (st.sentences.map (fun s => (s, st.speaker)))
            (annotatedAux st.speaker (raw :: rest))
          exact hp.isInfix
        · have h2 := ih _ buf spk h'
          have hann : annotatedAux st.speaker (raw :: rest) =
              (lineSentences (pyStrip r)).map (fun s => (s, some lbl)) ++
                annotatedAux (some lbl) rest := by
            simp [annotatedAux, hl, hm]
          rw [hann]
          have hs := List.suffix_append
            (st.sentences.map (fun s => (s, st.speaker)))
            ((lineSentences (pyStrip r)).map (fun s => (s, some lbl)) ++
              annotatedAux (some lbl) rest)
          exact h2.trans hs.isInfix

/-- Processing a line that matches the speaker pattern: the pending
sentences are flushed as chunks attributed to the previous speaker, and
processing continues with the new speaker active and only the label
line's remainder in the buffer. -/
theorem genAux_label_cons (maxS maxL maxC : Nat) (st : GenState)
    (raw : List Char) (ls : List (List Char)) (lbl r : List Char)
    (h : speakerMatch (pyStrip raw) = some (lbl, r)) :
    genAux maxS maxL maxC st (raw :: ls) =
      (build_chunks_from_sentences maxS maxL maxC st.sentences).map
        (fun c => (c, st.speaker)) ++
      genAux maxS maxL maxC ⟨lineSentences (pyStrip r), some lbl⟩ ls := by
  have hne : (pyStrip raw).isEmpty = false := by
    cases hc : pyStrip raw with
    | nil => rw [hc, speakerMatch_nil] at h; cases h
    | cons a b => rfl
  simp [genAux, processLine, hne, h]

/-- A run over lines that are all blank or label-only leaves the empty
sentence buffer empty and yields no chunks. -/
theorem genAux_degenerate (maxS maxL maxC : Nat) :
    ∀ (lines : List (List Char)) (spk : Option (List Char)),
      (∀ raw ∈ lines, pyStrip raw = [] ∨
        ∃ lbl r, speakerMatch (pyStrip raw) = some (lbl, r) ∧ pyStrip r = []) →
      genAux maxS maxL maxC ⟨[], spk⟩ lines = [] := by
  intro lines
  induction lines with
  | nil => intro spk h; rfl
  | cons raw rest ih =>
    intro spk h
    rcases h raw (by simp) with h1 | ⟨lbl, r, h2, h3⟩
    · have hl : (pyStrip raw).isEmpty = true := by simp [h1]
      simp only [genAux, processLine, hl, if_true, List.nil_append]
      exact ih spk (fun x hx => h x (List.mem_cons.mpr (Or.inr hx)))
    · rw [genAux_label_cons maxS maxL maxC _ raw rest lbl r h2, h3,
        lineSentences_nil]
      simp only [build_chunks_nil, List.map_nil, List.nil_append]
      exact ih (some lbl) (fun x hx => h x (List.mem_cons.mpr (Or.inr hx)))

/-- Decomposition of chunk-stream membership: every emitted `(t, spk)`
arises from a non-empty sentence group `g` of at most `maxS` sentences,
all of which are (as a contiguous run) tagged with `spk` in the
speaker-annotated Sentence stream, with `t` one of the cue texts the
builder produces from `g`. -/
theorem mem_generate_chunks_decomp {lines : List (List Char)}
    {maxS maxL maxC : Nat} (hS : 0 < maxS) {t : List Char}
    {spk : Option (List Char)}
    (hmem : (t, spk) ∈ generate_chunks maxS maxL maxC lines) :
    ∃ g : List (List Char), g ≠ [] ∧ g.length ≤ maxS ∧
      g.map (fun s => (s, spk)) <:+: annotatedSentences lines ∧
      t ∈ (toChunks maxL (pyWrap maxC (joinSep ' ' g))).map (joinSep '\n') := by
  rw [generate_chunks, genAux_eq_flushes] at hmem
  simp only [List.mem_flatMap, List.mem_map] at hmem
  rcases hmem with ⟨⟨buf, spk'⟩, hflush, c, hc, heq⟩
  have hc1 : c = t := congrArg Prod.fst heq
  have hc2 : spk' = spk := congrArg Prod.snd heq
  subst hc1
  subst hc2
  rw [build_chunks_from_sentences] at hc
  simp only [List.mem_flatMap] at hc
  rcases hc with ⟨g, hgbuf, hgt⟩
  rcases toChunks_mem hS hgbuf with ⟨hne, hlen, hinf⟩
  refine ⟨g, hne, hlen, ?_, hgt⟩
  have htag := flushes_tagged lines ⟨[], none⟩ buf spk' hflush
  simp only [List.map_nil, List.nil_append] at htag
  have hmap := List.IsInfix.map (fun s => (s, spk')) hinf
  exact hmap.trans htag

/-- C4: every emitted Cue is built from a group of at most
`max_sentences_per_chunk` sentences, and that group is a contiguous run
of the speaker-annotated Sentence stream in which every sentence carries
the cue's own speaker tag — no Cue mixes sentences attributed to two
different speakers. -/
theorem c4_cue_group_speaker (lines : List (List Char)) (maxS maxL maxC : Nat)
    (hS : 0 < maxS) (t : List Char) (spk : Option (List Char))
    (hmem : (t, spk) ∈ generate_chunks maxS maxL maxC lines) :
    ∃ g : List (List Char), g ≠ [] ∧ g.length ≤ maxS ∧
      g.map (fun s => (s, spk)) <:+: annotatedSentences lines ∧
      t ∈ (toChunks maxL (pyWrap maxC (joinSep ' ' g))).map (joinSep '\n') :=
  mem_generate_chunks_decomp hS hmem

/-- C4 witness: the single cue of the input line "A: Hi. Yo." satisfies
the group/speaker decomposition at the default limits. -/
theorem c4_witness :
    ∃ g : List (List Char), g ≠ [] ∧ g.length ≤ 2 ∧
      g.map (fun s => (s, some "A".toList)) <:+:
        annotatedSentences ["A: Hi. Yo.".toList] ∧
      "Hi Yo.".toList ∈
        (toChunks 4 (pyWrap 55 (joinSep ' ' g))).map (joinSep '\n') :=
  c4_cue_group_speaker ["A: Hi. Yo.".toList] 2 4 55 (by decide)
    "Hi Yo.".toList (some "A".toList) (by decide)

/-- C5: with positive limits, every emitted Cue consists of at most
`max_lines_per_chunk` lines (its text is those lines joined with
newlines, and no line contains a newline), and every line is within
`max_chars_per_line` characters unless it is a single unbroken word
(non-empty, no whitespace), which may exceed the width. -/
theorem c5_cue_line_bounds (lines : List (List Char)) (maxS maxL maxC : Nat)
    (hS : 0 < maxS) (hL : 0 < maxL) (_hC : 0 < maxC)
    (t : List Char) (spk : Option (List Char))
    (hmem : (t, spk) ∈ generate_chunks maxS maxL maxC lines) :
    ∃ ls : List (List Char), t = joinSep '\n' ls ∧ ls ≠ [] ∧
      ls.length ≤ maxL ∧ ∀ line ∈ ls, ('\n' : Char) ∉ line ∧
        (line.length ≤ maxC ∨ (line ≠ [] ∧ ∀ c ∈ line, isSpace c = false)) := by
  rcases mem_generate_chunks_decomp hS hmem with ⟨g, -, -, -, hgt⟩
  simp only [List.mem_map] at hgt
  rcases hgt with ⟨ls, hls, rfl⟩
  rcases toChunks_mem hL hls with ⟨hne, hlen, hinf⟩
  refine ⟨ls, rfl, hne, hlen, ?_⟩
  intro line hline
  have hline' : line ∈ pyWrap maxC (joinSep ' ' g) :=
    List.IsInfix.mem hline hinf
  have hs := pyWrap_line_sound maxC (joinSep ' ' g) line hline'
  exact ⟨hs.2, hs.1⟩

/-- C5 witness: the single cue of the input line "A: Hi. Yo." satisfies
the line bounds at the default limits. -/
theorem c5_witness :
    ∃ ls : List (List Char), "Hi Yo.".toList = joinSep '\n' ls ∧ ls ≠ [] ∧
      ls.length ≤ 4 ∧ ∀ line ∈ ls, ('\n' : Char) ∉ line ∧
        (line.length ≤ 55 ∨ (line ≠ [] ∧ ∀ c ∈ line, isSpace c = false)) :=
  c5_cue_line_bounds ["A: Hi. Yo.".toList] 2 4 55 (by decide) (by decide)
    (by decide) "Hi Yo.".toList (some "A".toList) (by decide)

/-- C1: the concatenation invariant fails as stated.  For the input line
"One. Two." the single emitted cue's text is "One Two.": the sentence
terminator of each non-final sentence is consumed and discarded by
`re.split` together with the following whitespace, so punctuation is not
preserved and the de-wrapped cue concatenation does not reproduce the
speaker-stripped input text "One. Two." (the difference is a deleted
period, not whitespace). -/
theorem c1_terminators_dropped :
    generate_chunks_from_file 2 4 55 ["One. Two."] = [("One Two.", none)] ∧
      ("One Two." : String) ≠ "One. Two." := by
  exact ⟨by decide, by decide⟩

/-- C2: Example 3 fails as stated.  The pipeline does emit three cues in
the claimed order with the claimed speakers, but the first cue's text is
"One Two", not "One. Two.": the splitting regex consumes the interior
sentence terminators. -/
theorem c2_example3_output :
    generate_chunks_from_file 2 4 55 ["A: One. Two. Three.", "B: Four."] =
      [("One Two", some "A"), ("Three.", some "A"), ("Four.", some "B")] ∧
    generate_chunks_from_file 2 4 55 ["A: One. Two. Three.", "B: Four."] ≠
      [("One. Two.", some "A"), ("Three.", some "A"), ("Four.", some "B")] := by
  exact ⟨by decide, by decide⟩

/-- C3 counterexample: a sentence whose text spans the two physical
lines "Hello" and "world." is NOT produced as a single Sentence: the
Sentence stream has two entries, and with `max_sentences_per_chunk = 1`
the pipeline emits two cues, not the single cue "Hello world." a
one-Sentence reading would give. -/
theorem c3_counterexample :
    annotatedSentences ["Hello".toList, "world.".toList] =
      [("Hello".toList, none), ("world.".toList, none)] ∧
    generate_chunks_from_file 1 10 55 ["Hello", "world."] =
      [("Hello", none), ("world.", none)] ∧
    generate_chunks_from_file 1 10 55 ["Hello", "world."] ≠
      [("Hello world.", none)] := by
  refine ⟨by decide, by decide, by decide⟩

/-- C3 (amended): the segmenter keeps no accumulation buffer across
physical lines.  A non-blank, non-label line in which the splitting
regex finds no sentence boundary contributes exactly one Sentence of its
own — its stripped text — so a sentence spanning several physical lines
yields one Sentence per line (each counting separately toward
`max_sentences_per_chunk`); the fragments are rejoined with single
spaces only when they fall into the same chunk. -/
theorem c3_line_fragment_single_sentence (spk : Option (List Char))
    (a : List Char) (rest : List (List Char))
    (h1 : pyStrip a ≠ [])
    (h2 : speakerMatch (pyStrip a) = none)
    (h3 : splitSentences (pyStrip a) = [pyStrip a]) :
    annotatedAux spk (a :: rest) = (pyStrip a, spk) :: annotatedAux spk rest := by
  have hl : (pyStrip a).isEmpty = false := by
    cases hp : pyStrip a with
    | nil => exact absurd hp h1
    | cons c t => rfl
  simp [annotatedAux, hl, h2, lineSentences, h3, pyStrip_idem, h1]

/-- C3 witness: the boundary-free line "Hello" contributes exactly the
one Sentence "Hello". -/
theorem c3_witness :
    annotatedAux none ["Hello".toList, "world.".toList] =
      ("Hello".toList, none) :: annotatedAux none ["world.".toList] :=
  c3_line_fragment_single_sentence none "Hello".toList ["world.".toList]
    (by decide) (by decide) (by decide)

/-- C6: a line matching the speaker pattern with an empty remainder
(label-only line) first flushes the pending sentences as cues attributed
to the previous speaker, installs the new label as the active speaker
for all subsequent processing, and contributes no Sentence and no cue
text of its own: the continuation state carries the new speaker and an
empty sentence buffer. -/
theorem c6_label_only_line (maxS maxL maxC : Nat) (st : GenState)
    (raw : List Char) (ls : List (List Char)) (lbl r : List Char)
    (h : speakerMatch (pyStrip raw) = some (lbl, r)) (hr : pyStrip r = []) :
    genAux maxS maxL maxC st (raw :: ls) =
      (build_chunks_from_sentences maxS maxL maxC st.sentences).map
        (fun c => (c, st.speaker)) ++
      genAux maxS maxL maxC ⟨[], some lbl⟩ ls := by
  rw [genAux_label_cons maxS maxL maxC st raw ls lbl r h, hr, lineSentences_nil]

/-- C6 witness: the label-only line "B:" flushes the pending sentence
"Hi." to speaker "A" and switches the active speaker to "B" with an
empty buffer. -/
theorem c6_witness :
    genAux 2 4 55 ⟨["Hi.".toList], some "A".toList⟩ ["B:".toList] =
      (build_chunks_from_sentences 2 4 55 ["Hi.".toList]).map
        (fun c => (c, some "A".toList)) ++
      genAux 2 4 55 ⟨[], some "B".toList⟩ [] :=
  c6_label_only_line 2 4 55 ⟨["Hi.".toList], some "A".toList⟩ "B:".toList []
    "B".toList [] (by decide) (by decide)

/-- C7 witness: the line "BOB: hi" matches with the non-empty label
"BOB". -/
theorem c7_witness : "BOB".toList ≠ [] :=
  @c7_label_nonempty "BOB: hi".toList "BOB".toList "hi".toList (by decide)

/-- C8: an input whose every line is blank or label-only (in particular
an empty input) yields zero cues and the pipeline terminates cleanly
with the empty cue list. -/
theorem c8_degenerate_zero_cues (maxS maxL maxC : Nat) (lines : List String)
    (h : ∀ raw ∈ lines, pyStrip raw.toList = [] ∨
      ∃ lbl r, speakerMatch (pyStrip raw.toList) = some (lbl, r) ∧
        pyStrip r = []) :
    generate_chunks_from_file maxS maxL maxC lines = [] := by
  have hz := genAux_degenerate maxS maxL maxC (lines.map String.toList) none ?_
  · rw [generate_chunks_from_file, generate_chunks, hz]
    rfl
  · intro raw hraw
    rcases List.mem_map.mp hraw with ⟨s, hs, rfl⟩
    exact h s hs

/-- C8 witness: a file of a blank line, a label-only line and a
whitespace line yields zero cues. -/
theorem c8_witness : generate_chunks_from_file 2 4 55 ["", "BOB:", "   "] = [] :=
  c8_degenerate_zero_cues 2 4 55 ["", "BOB:", "   "] (by
    intro raw hraw
    rcases List.mem_cons.mp hraw with rfl | hraw
    · exact Or.inl (by decide)
    · rcases List.mem_cons.mp hraw with rfl | hraw
      · exact Or.inr ⟨"BOB".toList, [], by decide, by decide⟩
      · rcases List.mem_cons.mp hraw with rfl | hraw
        · exact Or.inl (by decide)
        · cases hraw)

/-- C9: a line matching the speaker pattern flushes the pending sentence
group into cues even when the matched label equals the already-active
speaker, so a repeated same-speaker label line still forces a cue
boundary between the text before and after it. -/
theorem c9_same_speaker_flush (maxS maxL maxC : Nat) (st : GenState)
    (raw : List Char) (ls : List (List Char)) (lbl r : List Char)
    (h : speakerMatch (pyStrip raw) = some (lbl, r))
    (hsame : st.speaker = some lbl) :
    genAux maxS maxL maxC st (raw :: ls) =
      (build_chunks_from_sentences maxS maxL maxC st.sentences).map
        (fun c => (c, some lbl)) ++
      genAux maxS maxL maxC ⟨lineSentences (pyStrip r), some lbl⟩ ls := by
  rw [genAux_label_cons maxS maxL maxC st raw ls lbl r h, hsame]

/-- C9 witness: with speaker "A" active and "One." pending, the line
"A: Two." (same speaker) still flushes "One." into its own cue before
"Two." is buffered. -/
theorem c9_witness :
    genAux 2 4 55 ⟨["One.".toList], some "A".toList⟩ ["A: Two.".toList] =
      (build_chunks_from_sentences 2 4 55 ["One.".toList]).map
        (fun c => (c, some "A".toList)) ++
      genAux 2 4 55 ⟨["Two.".toList], some "A".toList⟩ [] := by
  have he := c9_same_speaker_flush 2 4 55 ⟨["One.".toList], some "A".toList⟩
    "A: Two.".toList [] "A".toList "Two.".toList (by decide) (by decide)
  rw [he]
  rfl

/-- C10: when the input produces zero cues, `main` still prints the
fade-group message and invokes `create_fadegroups()`, and then raises
`NameError` at the final count report (the loop variable is unbound
after zero iterations); consequently the "All ... cues created
successfully" report can only appear when at least one cue was
produced. -/
theorem c10_zero_cues_name_error (lines : List String) :
    (generate_chunks_from_file MAX_SENTENCES_PER_CHUNK MAX_LINES_PER_CHUNK
        MAX_CHARS_PER_LINE lines = [] →
      mainModel lines =
        ([Effect.printFadeMsg, Effect.createFadeGroups],
          some PyError.nameError)) ∧
    (∀ n : Nat, Effect.printAllMsg n ∈ (mainModel lines).1 →
      generate_chunks_from_file MAX_SENTENCES_PER_CHUNK MAX_LINES_PER_CHUNK
        MAX_CHARS_PER_LINE lines ≠ []) := by
  constructor
  · intro h
    simp [mainModel, h]
  · intro n hmem hnil
    simp [mainModel, hnil] at hmem

/-- C10 witness: on the empty input the trace is exactly the fade-group
message and call, with the NameError outcome. -/
theorem c10_witness :
    mainModel [] = ([Effect.printFadeMsg, Effect.createFadeGroups],
      some PyError.nameError) :=
  (c10_zero_cues_name_error []).1 (by decide)

end TextCues
